import Mathlib

/-
Shallow embedding of the AAP-Docks issuance ledger and entitlement engine
(src/main.py).  Python strings are embedded as lists of characters, Python
`date` objects as a year/month/day record, and spreadsheet cell values as a
small inductive type.  Python operations that can raise are embedded as
`Option`-valued functions (`none` = the call raises).  Each definition mirrors
one function or method of the source file; comments name the source lines.
-/

/-- Python strings, embedded as lists of characters. -/
abbrev Str := List Char

def isWS (c : Char) : Bool := c.isWhitespace

/-- Python `str.strip()`: drop leading and trailing whitespace. -/
def pyStrip (s : Str) : Str :=
  ((s.dropWhile isWS).reverse.dropWhile isWS).reverse

/-- Python `datetime.date` values (raw triple; validity is checked by
`mkDate`, the embedding of the `date(...)` constructor). -/
structure PyDate where
  year : Int
  month : Int
  day : Int
deriving DecidableEq, Repr

/-- Gregorian leap year (divisible by 4, not by 100 unless by 400). -/
def isLeap (y : Int) : Bool := (y % 4 == 0 && y % 100 != 0) || y % 400 == 0

/-- Length of a month in the proleptic Gregorian calendar.  In the source this
is obtained as `(first_of_next_month - timedelta(days=1)).day`. -/
def daysInMonth (y m : Int) : Int :=
  if m = 2 then (if isLeap y then 29 else 28)
  else if m = 4 ∨ m = 6 ∨ m = 9 ∨ m = 11 then 30
  else 31

/-- The values representable by a Python `date` object: Python enforces
`MINYEAR = 1 <= year <= MAXYEAR = 9999` and a real calendar day. -/
def ValidDate (d : PyDate) : Prop :=
  1 ≤ d.year ∧ d.year ≤ 9999 ∧ 1 ≤ d.month ∧ d.month ≤ 12 ∧
    1 ≤ d.day ∧ d.day ≤ daysInMonth d.year d.month

instance (d : PyDate) : Decidable (ValidDate d) := by
  unfold ValidDate; exact inferInstance

/-- The Python `date(y, m, d)` constructor; `none` models the `ValueError`
raised on out-of-range arguments. -/
def mkDate (y m d : Int) : Option PyDate :=
  if 1 ≤ y ∧ y ≤ 9999 ∧ 1 ≤ m ∧ m ≤ 12 ∧ 1 ≤ d ∧ d ≤ daysInMonth y m then
    some ⟨y, m, d⟩
  else
    Option.none

/-- `x - timedelta(days=1)` on dates.  Python raises `OverflowError` below
`date(1, 1, 1)`; the embedding returns year 0 there, which every subsequent
`mkDate` call rejects, so the raise surfaces as `none` at the same call
sites. -/
def dayBefore (d : PyDate) : PyDate :=
  if 1 < d.day then ⟨d.year, d.month, d.day - 1⟩
  else if 1 < d.month then ⟨d.year, d.month - 1, daysInMonth d.year (d.month - 1)⟩
  else ⟨d.year - 1, 12, 31⟩

/-- `add_months` (src/main.py:81-95).  Python `//` and `%` are `Int.fdiv` and
`Int.fmod`.  `none` models the `ValueError` raised by a `date(...)` call when
the computed year leaves Python's range (the `start_date is None` short
circuit lives at the call sites, which pass an `Option`). -/
def add_months (start : PyDate) (months : Int) : Option PyDate :=
  let m0 := start.month - 1 + months
  let y := start.year + m0.fdiv 12
  let m := m0.fmod 12 + 1
  match (if m = 12 then mkDate (y + 1) 1 1 else mkDate y (m + 1) 1) with
  | Option.none => Option.none
  | some firstNext =>
    let lastDay := (dayBefore firstNext).day
    mkDate y m (min start.day lastDay)

/-- Days from the start of the year to the start of month `m`. -/
def daysBeforeMonth (y m : Int) : Int :=
  (if 2 ≤ m then 31 else 0) + (if 3 ≤ m then daysInMonth y 2 else 0) +
  (if 4 ≤ m then 31 else 0) + (if 5 ≤ m then 30 else 0) +
  (if 6 ≤ m then 31 else 0) + (if 7 ≤ m then 30 else 0) +
  (if 8 ≤ m then 31 else 0) + (if 9 ≤ m then 31 else 0) +
  (if 10 ≤ m then 30 else 0) + (if 11 ≤ m then 31 else 0) +
  (if 12 ≤ m then 30 else 0)

/-- Python `date.toordinal()` (proleptic Gregorian day number);
`(a - b).days = toRD a - toRD b`. -/
def toRD (d : PyDate) : Int :=
  365 * (d.year - 1) + (d.year - 1).fdiv 4 - (d.year - 1).fdiv 100 +
    (d.year - 1).fdiv 400 + daysBeforeMonth d.year d.month + d.day

/-- Python `<` on dates (lexicographic on year/month/day). -/
def dateLtB (a b : PyDate) : Bool :=
  decide (a.year < b.year) ||
    (decide (a.year = b.year) &&
      (decide (a.month < b.month) ||
        (decide (a.month = b.month) && decide (a.day < b.day))))

/-- Python `<=` on dates. -/
def dateLeB (a b : PyDate) : Bool := !dateLtB b a

/-- Value of a decimal digit character. -/
def digitVal (c : Char) : Nat := c.toNat - '0'.toNat

/-- Parse a non-empty all-digit string. -/
def parseNatDigits (s : Str) : Option Nat :=
  if s ≠ [] ∧ s.all Char.isDigit then
    some (s.foldl (fun a c => 10 * a + digitVal c) 0)
  else
    Option.none

/-- One numeric field of a `strptime` pattern: 1 to `maxLen` digits. -/
def parseField (maxLen : Nat) (s : Str) : Option Int :=
  if s.length ≤ maxLen then (parseNatDigits s).map (fun n => (n : Int))
  else Option.none

/-- `strptime` with a year-month-day pattern separated by `sep`
(the `%Y`, `%m`, `%d` fields take up to 4, 2, 2 digits). -/
def parseYMD (sep : Char) (s : Str) : Option PyDate :=
  match s.splitOn sep with
  | [a, b, c] => do
    let y ← parseField 4 a
    let m ← parseField 2 b
    let d ← parseField 2 c
    mkDate y m d
  | _ => Option.none

/-- `strptime` with a day-month-year pattern separated by `sep`. -/
def parseDMY (sep : Char) (s : Str) : Option PyDate :=
  match s.splitOn sep with
  | [a, b, c] => do
    let d ← parseField 2 a
    let m ← parseField 2 b
    let y ← parseField 4 c
    mkDate y m d
  | _ => Option.none

/-- The string-parsing loop of `parse_date` (src/main.py:73-78): the formats
`%Y-%m-%d`, `%d.%m.%Y`, `%Y/%m/%d`, `%Y.%m.%d` are tried in order. -/
def parseDateStr (s : Str) : Option PyDate :=
  (parseYMD '-' s).or ((parseDMY '.' s).or ((parseYMD '/' s).or (parseYMD '.' s)))

/-- A spreadsheet cell value as returned by the workbook reader: empty,
an integer, a string, or a date.  (`CellVal.date` stands for a Python
`date`/`datetime` object, which is always a valid calendar date.) -/
inductive CellVal where
  | none
  | int (n : Int)
  | str (s : Str)
  | date (d : PyDate)
deriving DecidableEq, Repr

/-- Python truthiness of a cell value. -/
def CellVal.truthy : CellVal → Bool
  | .none => false
  | .int n => n != 0
  | .str s => !s.isEmpty
  | .date _ => true

/-- Decimal rendering of an integer, as Python `str(n)`. -/
def intStr (n : Int) : Str := (toString n).toList

/-- Zero-pad a digit string on the left to width `k`. -/
def padZeros (k : Nat) (s : Str) : Str := List.replicate (k - s.length) '0' ++ s

/-- Python `date.isoformat()` / `str(d)`: `YYYY-MM-DD`. -/
def isoStr (d : PyDate) : Str :=
  padZeros 4 (intStr d.year.toNat) ++ '-' :: padZeros 2 (intStr d.month.toNat) ++
    '-' :: padZeros 2 (intStr d.day.toNat)

/-- Python `str(v)` on a cell value. -/
def CellVal.pyStr : CellVal → Str
  | .none => "None".toList
  | .int n => intStr n
  | .str s => s
  | .date d => isoStr d

/-- Python `str(v or "")` on a cell value. -/
def pyOrEmpty (v : CellVal) : Str := if v.truthy then v.pyStr else []

/-- Python `int(s)` on a string: optional sign around a non-empty digit
string, with surrounding whitespace allowed; `none` = `ValueError`. -/
def parseIntStr (s : Str) : Option Int :=
  match pyStrip s with
  | '+' :: rest => (parseNatDigits rest).map (fun n => (n : Int))
  | '-' :: rest => (parseNatDigits rest).map (fun n => -(n : Int))
  | t => (parseNatDigits t).map (fun n => (n : Int))

/-- Python `int(v)` on a cell value; `none` models the `TypeError` or
`ValueError` raised on non-numeric input. -/
def CellVal.pyInt : CellVal → Option Int
  | .int n => some n
  | .str s => parseIntStr s
  | _ => Option.none

/-- Python `int(v or 0)`. -/
def pyIntOr0 (v : CellVal) : Option Int :=
  CellVal.pyInt (if v.truthy then v else .int 0)

/-- `parse_date` (src/main.py:65-78): `None` and genuine date objects are
passed through, anything else is rendered with `str`, stripped, and run
through the format loop. -/
def parse_date : CellVal → Option PyDate
  | .none => Option.none
  | .date d => some d
  | v => parseDateStr (pyStrip v.pyStr)

/-- The prefix of `s` before the last occurrence of `c`, i.e. Python
`s[:s.rfind(c)]`; only called when `c` occurs in `s` (the `rfind = -1` case
never arises under the caller's guard). -/
def beforeLast (c : Char) : Str → Str
  | [] => []
  | x :: xs => if c ∈ xs then x :: beforeLast c xs else []

/-- `strip_size_suffix` (src/main.py:111-117). -/
def strip_size_suffix (name : Str) : Str :=
  if name = [] then []
  else
    let t := pyStrip name
    if '(' ∈ t ∧ t.getLast? = some ')' then pyStrip (beforeLast '(' t) else t

/-- `ensure_size_suffix` (src/main.py:120-124):
`f"{base} ({size} dydis)".strip()` with `base = strip_size_suffix name`. -/
def ensure_size_suffix (name size : Str) : Str :=
  if size = [] then name
  else pyStrip (strip_size_suffix name ++ " (".toList ++ size ++ " dydis)".toList)

/-- The `EmployeeInfo` dataclass (src/main.py:52-59). -/
structure EmployeeInfo where
  tab_nr : Str
  name : Str
  department : Str
  position : Str
  gender : Str
  issue_date : Option PyDate := Option.none
deriving DecidableEq, Repr

/-- One ledger row of `AAP DB.xlsx`, in the column order of
`AAP_DB_COLUMNS` (src/main.py:31-42). -/
structure Row where
  numeris : CellVal
  vardas : CellVal
  tabNr : CellVal
  padalinys : CellVal
  pareigos : CellVal
  lytis : CellVal
  kodas : CellVal
  apranga : CellVal
  isduota : CellVal
  susidevejimas : CellVal
deriving DecidableEq, Repr

/-- Python `any(row)` over the tuple of cell values. -/
def rowTruthy (r : Row) : Bool :=
  r.numeris.truthy || r.vardas.truthy || r.tabNr.truthy || r.padalinys.truthy ||
    r.pareigos.truthy || r.lytis.truthy || r.kodas.truthy || r.apranga.truthy ||
    r.isduota.truthy || r.susidevejimas.truthy

/-- `AAPDbRepo.load_rows` (src/main.py:346-353): all sheet rows below the
header whose tuple is not entirely falsy. -/
def loadRows (ledger : List Row) : List Row := ledger.filter rowTruthy

/-- One iteration of the `Numeris` scan in `next_document_number`
(src/main.py:358-364): values equal to `None` or `""` are skipped, and
`int(v)` failures are swallowed by the `except` clause. -/
def numerisVal (v : CellVal) : Option Int :=
  if v = CellVal.none ∨ v = CellVal.str [] then Option.none else v.pyInt

/-- The parsable `Numeris` values of a ledger. -/
def docNums (ledger : List Row) : List Int :=
  (loadRows ledger).filterMap (fun r => numerisVal r.numeris)

/-- Python `max` over a non-empty list. -/
def maxList (x : Int) (xs : List Int) : Int := xs.foldl max x

/-- `AAPDbRepo.next_document_number` (src/main.py:355-365). -/
def next_document_number (ledger : List Row) : Int :=
  (match docNums ledger with
   | [] => 0
   | x :: xs => maxList x xs) + 1

/-- One line of the issuance form: `{"code": ..., "name": ..., "months": ...}`
as produced by `NewGearPage.collect_items`. -/
structure Item where
  code : Str
  name : Str
  months : Int
deriving DecidableEq, Repr

/-- The row written for one item by `append_issuance` (src/main.py:370-381).
`int(it.get("months", 0) or 0)` is the identity on the integer `months`
field. -/
def mkIssuanceRow (e : EmployeeInfo) (docNo : Int) (issuedDate : PyDate) (it : Item) : Row :=
  { numeris := .int docNo
    vardas := .str e.name
    tabNr := .str e.tab_nr
    padalinys := .str e.department
    pareigos := .str e.position
    lytis := .str e.gender
    kodas := .str it.code
    apranga := .str it.name
    isduota := .str (isoStr issuedDate)
    susidevejimas := .int it.months }

/-- `AAPDbRepo.append_issuance` (src/main.py:367-383): the loop walks the
items in reverse and inserts each freshly written row at sheet row 2, i.e. at
the head of the list of data rows. -/
def append_issuance (ledger : List Row) (e : EmployeeInfo) (items : List Item)
    (docNo : Int) (issuedDate : PyDate) : List Row :=
  items.reverse.foldl (fun acc it => mkIssuanceRow e docNo issuedDate it :: acc) ledger

/-- The `Tab. Nr` filter of `current_gear_for_employee` (src/main.py:387). -/
def tabMatches (e : EmployeeInfo) (r : Row) : Bool :=
  decide (pyStrip r.tabNr.pyStr = e.tab_nr)

/-- The department/position filter of `current_gear_for_employee`
(src/main.py:390-392). -/
def deptPosMatches (e : EmployeeInfo) (r : Row) : Bool :=
  decide (pyStrip r.padalinys.pyStr = e.department) &&
    decide (pyStrip r.pareigos.pyStr = e.position)

/-- The records of the ledger considered by the entitlement resolver: the
employee's rows restricted to the current department/position. -/
def relRows (ledger : List Row) (e : EmployeeInfo) : List Row :=
  ((loadRows ledger).filter (tabMatches e)).filter (deptPosMatches e)

/-- `str(r.get("Apranga", "") or "").strip()` for a row. -/
def nmOf (r : Row) : Str := pyStrip (pyOrEmpty r.apranga)

/-- The grouping key of the resolver: display name with the size suffix
stripped. -/
def baseOf (r : Row) : Str := strip_size_suffix (nmOf r)

/-- `latest[base] = {...}` on the insertion-ordered Python dict, embedded as
an association list: an existing key is updated in place (keeping its
position) when the new issue date is strictly later; a fresh key is appended.
This is exactly `if prev is None or issued > prev["issued"]`
(src/main.py:403-405). -/
def insertLatest : List (Str × Row × PyDate) → Str → Row → PyDate → List (Str × Row × PyDate)
  | [], b, r, d => [(b, r, d)]
  | (k, r0, d0) :: rest, b, r, d =>
    if k = b then
      (if dateLtB d0 d then (k, r, d) :: rest else (k, r0, d0) :: rest)
    else
      (k, r0, d0) :: insertLatest rest b r d

/-- One iteration of the grouping loop of `current_gear_for_employee`
(src/main.py:394-405): rows with an empty display name or an unparsable
issue date are skipped. -/
def stepLatest (m : List (Str × Row × PyDate)) (r : Row) : List (Str × Row × PyDate) :=
  if nmOf r = [] then m
  else
    match parse_date r.isduota with
    | Option.none => m
    | some issued => insertLatest m (baseOf r) r issued

/-- The `latest` dict after the grouping loop. -/
def buildLatest (rs : List Row) : List (Str × Row × PyDate) := rs.foldl stepLatest []

/-- One output dict of `current_gear_for_employee` (src/main.py:415-422). -/
structure GearEntry where
  apranga : Str
  kodas : Str
  isduota : Option PyDate
  men : Int
  keistiIki : Option PyDate
  like : Option Int
deriving DecidableEq, Repr

/-- The output-building loop body of `current_gear_for_employee`
(src/main.py:409-422).  `none` models an uncaught exception: the bare
`int(r.get("Susidėvėjimas") or 0)` raising `ValueError`/`TypeError` on a
non-numeric cell, or `add_months` raising on a year outside Python's date
range. -/
def mkEntry (today : PyDate) (t : Str × Row × PyDate) : Option GearEntry :=
  let r := t.2.1
  let issued := parse_date r.isduota
  match pyIntOr0 r.susidevejimas with
  | Option.none => Option.none
  | some months =>
    match issued with
    | some i =>
      match add_months i months with
      | Option.none => Option.none
      | some cd =>
        some { apranga := pyOrEmpty r.apranga, kodas := pyOrEmpty r.kodas,
               isduota := issued, men := months, keistiIki := some cd,
               like := some (toRD cd - toRD today) }
    | Option.none =>
      some { apranga := pyOrEmpty r.apranga, kodas := pyOrEmpty r.kodas,
             isduota := issued, men := months, keistiIki := Option.none,
             like := Option.none }

/-- Run the output loop over the whole dict; a raise anywhere aborts the
read. -/
def collectEntries {α β : Type} (f : α → Option β) : List α → Option (List β)
  | [] => some []
  | t :: ts =>
    match f t, collectEntries f ts with
    | some e, some es => some (e :: es)
    | _, _ => Option.none

/-- The sort key of src/main.py:424:
`(x["Likę"] is None, x["Likę"] if x["Likę"] is not None else 10**9)`. -/
def sortKey (x : GearEntry) : Int × Int :=
  (if x.like.isNone then 1 else 0, x.like.getD 1000000000)

/-- Lexicographic comparison of Python key tuples. -/
def keyLe (a b : Int × Int) : Bool :=
  decide (a.1 < b.1) || (decide (a.1 = b.1) && decide (a.2 ≤ b.2))

def entryLe (a b : GearEntry) : Bool := keyLe (sortKey a) (sortKey b)

/-- `AAPDbRepo.current_gear_for_employee` (src/main.py:385-425), with
`date.today()` passed explicitly.  `none` models the read aborting with an
uncaught exception. -/
def current_gear_for_employee (ledger : List Row) (e : EmployeeInfo) (today : PyDate) :
    Option (List GearEntry) :=
  match collectEntries (mkEntry today) (buildLatest (relRows ledger e)) with
  | Option.none => Option.none
  | some out => some (out.mergeSort entryLe)

/-- The month index of a date: months elapsed since the start of year 0;
`add_months` shifts it by exactly its argument. -/
def monthIdx (d : PyDate) : Int := 12 * d.year + d.month - 1

/-- A concrete employee used in the concrete instances below. -/
def empW : EmployeeInfo :=
  { tab_nr := "T1".toList, name := "Jonas J".toList, department := "D1".toList,
    position := "P1".toList, gender := "Vyras".toList }

/-- A concrete ledger row for `empW` in the current department/position. -/
def rowA : Row :=
  { numeris := .int 1, vardas := .str "Jonas J".toList, tabNr := .str "T1".toList,
    padalinys := .str "D1".toList, pareigos := .str "P1".toList,
    lytis := .str "Vyras".toList, kodas := .str "05".toList,
    apranga := .str "Pirstines (32 dydis)".toList,
    isduota := .str "2024-01-10".toList, susidevejimas := .int 6 }

/-- A later issuance of the same base item, differing in date. -/
def rowB : Row := { rowA with numeris := .int 2, isduota := .str "2024-03-15".toList }

/-- Like `rowA` but with a non-numeric wear-months cell. -/
def rowBadMonths : Row := { rowA with susidevejimas := .str "abc".toList }

/-- Like `rowA` but with an unparsable issue-date cell. -/
def rowBadDate : Row := { rowA with isduota := .str "kovo 15".toList }

/-- Like `rowA` but with `wear_months = 0`. -/
def rowZeroMonths : Row := { rowA with susidevejimas := .int 0 }

/-- A concrete value for `date.today()`. -/
def todayW : PyDate := ⟨2024, 7, 1⟩

/-- A concrete issuance line. -/
def itemW : Item := { code := "05".toList, name := "Pirstines (32 dydis)".toList, months := 6 }

/-- The entry the resolver produces for `[rowZeroMonths]`. -/
def entryZero : GearEntry :=
  { apranga := "Pirstines (32 dydis)".toList, kodas := "05".toList,
    isduota := some ⟨2024, 1, 10⟩, men := 0, keistiIki := some ⟨2024, 1, 10⟩,
    like := some (-173) }

/-- The entry the resolver produces for `[rowA]`. -/
def entryA : GearEntry :=
  { apranga := "Pirstines (32 dydis)".toList, kodas := "05".toList,
    isduota := some ⟨2024, 1, 10⟩, men := 6, keistiIki := some ⟨2024, 7, 10⟩,
    like := some 9 }

/-- The entry the resolver produces for `[rowA, rowB]` (the later issuance). -/
def entryB : GearEntry :=
  { apranga := "Pirstines (32 dydis)".toList, kodas := "05".toList,
    isduota := some ⟨2024, 3, 15⟩, men := 6, keistiIki := some ⟨2024, 9, 15⟩,
    like := some 76 }

/-- Invariant of the grouping loop: after processing the rows `seen`, the
accumulated dict `m` has pairwise-distinct keys; every entry stems from a
seen row, is keyed by that row's base name, and stores the row's parsed
issue date; every entry's date dominates the parsed dates of all seen rows
of its base name; and every seen row with a name and a parsable date has an
entry under its base name. -/
def latestInv (seen : List Row) (m : List (Str × Row × PyDate)) : Prop :=
  (m.map Prod.fst).Nodup ∧
  (∀ t ∈ m, t.2.1 ∈ seen ∧ baseOf t.2.1 = t.1 ∧ nmOf t.2.1 ≠ [] ∧
      parse_date t.2.1.isduota = some t.2.2) ∧
  (∀ t ∈ m, ∀ r ∈ seen, nmOf r ≠ [] → baseOf r = t.1 →
      ∀ d, parse_date r.isduota = some d → dateLeB d t.2.2 = true) ∧
  (∀ r ∈ seen, nmOf r ≠ [] → (parse_date r.isduota).isSome →
      baseOf r ∈ m.map Prod.fst)

theorem fdiv_fmod_small {a : Int} (h0 : 0 ≤ a) (h12 : a < 12) :
    a.fdiv 12 = 0 ∧ a.fmod 12 = a := by
  have h1 : a.fmod 12 + 12 * a.fdiv 12 = a := Int.fmod_add_fdiv a 12
  have h2 : 0 ≤ a.fmod 12 := by
    rw [Int.fmod_eq_emod _ (by norm_num)]
    exact Int.emod_nonneg a (by norm_num)
  have h3 : a.fmod 12 < 12 := Int.fmod_lt_of_pos a (by norm_num)
  omega

theorem mkDate_some {y m d : Int} {r : PyDate} (h : mkDate y m d = some r) :
    r = ⟨y, m, d⟩ ∧ ValidDate r := by
  by_cases hc : 1 ≤ y ∧ y ≤ 9999 ∧ 1 ≤ m ∧ m ≤ 12 ∧ 1 ≤ d ∧ d ≤ daysInMonth y m
  · simp only [mkDate, if_pos hc, Option.some.injEq] at h
    refine ⟨h.symm, ?_⟩
    rw [← h]
    exact hc
  · simp only [mkDate, if_neg hc] at h
    cases h

theorem mkDate_of_valid {y m d : Int}
    (h : 1 ≤ y ∧ y ≤ 9999 ∧ 1 ≤ m ∧ m ≤ 12 ∧ 1 ≤ d ∧ d ≤ daysInMonth y m) :
    mkDate y m d = some ⟨y, m, d⟩ := by
  unfold mkDate
  rw [if_pos h]

theorem daysInMonth_twelve (y : Int) : daysInMonth y 12 = 31 := by
  norm_num [daysInMonth]

/-- Core characterisation of `add_months` on successful results. -/
theorem add_months_spec (start : PyDate) (n : Int) (res : PyDate)
    (h : add_months start n = some res) :
    ValidDate res ∧ monthIdx res = monthIdx start + n ∧
      res.day = min start.day (daysInMonth res.year res.month) := by
  simp only [add_months] at h
  have hdiv : (start.month - 1 + n).fmod 12 + 12 * (start.month - 1 + n).fdiv 12
      = start.month - 1 + n := Int.fmod_add_fdiv _ 12
  have hnn : 0 ≤ (start.month - 1 + n).fmod 12 := by
    rw [Int.fmod_eq_emod _ (by norm_num)]
    exact Int.emod_nonneg _ (by norm_num)
  have hlt : (start.month - 1 + n).fmod 12 < 12 := Int.fmod_lt_of_pos _ (by norm_num)
  set q := (start.month - 1 + n).fdiv 12 with hq
  set w := (start.month - 1 + n).fmod 12 with hw
  by_cases h12 : w + 1 = 12
  · rw [if_pos h12] at h
    cases hfn : mkDate (start.year + q + 1) 1 1 with
    | none => rw [hfn] at h; cases h
    | some fn =>
      rw [hfn] at h
      obtain ⟨hfe, _⟩ := mkDate_some hfn
      subst hfe
      simp only [dayBefore] at h
      norm_num at h
      obtain ⟨hre, hrv⟩ := mkDate_some h
      subst hre
      refine ⟨hrv, ?_, ?_⟩
      · simp only [monthIdx]
        omega
      · rw [h12, daysInMonth_twelve]
  · rw [if_neg h12] at h
    cases hfn : mkDate (start.year + q) (w + 1 + 1) 1 with
    | none => rw [hfn] at h; cases h
    | some fn =>
      rw [hfn] at h
      obtain ⟨hfe, hfv⟩ := mkDate_some hfn
      subst hfe
      simp only [dayBefore] at h
      have hgt : (1 : Int) < w + 1 + 1 := by omega
      rw [if_neg (by norm_num), if_pos hgt] at h
      norm_num at h
      obtain ⟨hre, hrv⟩ := mkDate_some h
      subst hre
      refine ⟨hrv, ?_, rfl⟩
      simp only [monthIdx]
      omega

/-- C6: `add_months` adds `n` calendar months (the month index moves by
exactly `n`) and clamps the day to the last valid day of the target month,
with Gregorian leap years; in particular Jan 31 2024 + 1 month is
Feb 29 2024, Jan 31 2023 + 1 month is Feb 28 2023, and the computation is
correct across a year boundary. -/
theorem c6_add_months_clamps_day :
    (∀ (start : PyDate) (n : Int) (res : PyDate), add_months start n = some res →
      ValidDate res ∧ monthIdx res = monthIdx start + n ∧
        res.day = min start.day (daysInMonth res.year res.month))
    ∧ add_months ⟨2024, 1, 31⟩ 1 = some ⟨2024, 2, 29⟩
    ∧ add_months ⟨2023, 1, 31⟩ 1 = some ⟨2023, 2, 28⟩
    ∧ add_months ⟨2023, 11, 30⟩ 3 = some ⟨2024, 2, 29⟩ :=
  ⟨add_months_spec, by decide, by decide, by decide⟩

/-- Witness for C6 at `start = 2024-01-31`, `n = 1`. -/
theorem c6_add_months_clamps_day_witness :
    ValidDate ⟨2024, 2, 29⟩ ∧ monthIdx ⟨2024, 2, 29⟩ = monthIdx ⟨2024, 1, 31⟩ + 1 ∧
      (29 : Int) = min 31 (daysInMonth 2024 2) :=
  c6_add_months_clamps_day.1 ⟨2024, 1, 31⟩ 1 ⟨2024, 2, 29⟩ (by decide)

theorem dateLtB_iff {a b : PyDate} :
    dateLtB a b = true ↔
      (a.year < b.year ∨ (a.year = b.year ∧
        (a.month < b.month ∨ (a.month = b.month ∧ a.day < b.day)))) := by
  simp [dateLtB]

theorem dateLeB_iff {a b : PyDate} :
    dateLeB a b = true ↔
      ¬(b.year < a.year ∨ (b.year = a.year ∧
        (b.month < a.month ∨ (b.month = a.month ∧ b.day < a.day)))) := by
  rw [dateLeB, Bool.not_eq_true', ← Bool.not_eq_true, dateLtB_iff]

theorem dateLeB_refl (a : PyDate) : dateLeB a a = true := by
  rw [dateLeB_iff]; omega

theorem dateLeB_of_not_lt {a b : PyDate} (h : dateLtB a b = false) :
    dateLeB b a = true := by
  rw [dateLeB, h]; rfl

theorem dateLeB_trans_lt {a b c : PyDate} (h1 : dateLeB a b = true)
    (h2 : dateLtB b c = true) : dateLeB a c = true := by
  rw [dateLeB_iff] at h1 ⊢
  rw [dateLtB_iff] at h2
  omega

theorem mem_keys_exists {m : List (Str × Row × PyDate)} {b : Str}
    (h : b ∈ m.map Prod.fst) : ∃ rp dp, (b, rp, dp) ∈ m := by
  obtain ⟨t, ht, hfst⟩ := List.mem_map.1 h
  exact ⟨t.2.1, t.2.2, by rwa [← hfst]⟩

theorem keys_unique {m : List (Str × Row × PyDate)} {b : Str} {v w : Row × PyDate}
    (hnd : (m.map Prod.fst).Nodup) (h1 : (b, v) ∈ m) (h2 : (b, w) ∈ m) : v = w := by
  induction m with
  | nil => cases h1
  | cons hd tl ih =>
    rw [List.map_cons, List.nodup_cons] at hnd
    rcases List.mem_cons.1 h1 with h1 | h1 <;> rcases List.mem_cons.1 h2 with h2 | h2
    · rw [← h2] at h1; exact congrArg Prod.snd h1
    · exfalso; exact hnd.1 (by rw [← h1]; exact List.mem_map.2 ⟨(b, w), h2, rfl⟩)
    · exfalso; exact hnd.1 (by rw [← h2]; exact List.mem_map.2 ⟨(b, v), h1, rfl⟩)
    · exact ih hnd.2 h1 h2

theorem insertLatest_mem {m : List (Str × Row × PyDate)} {b : Str} {r : Row}
    {d : PyDate} {t : Str × Row × PyDate} (h : t ∈ insertLatest m b r d) :
    t ∈ m ∨ t = (b, r, d) := by
  induction m with
  | nil =>
    simp only [insertLatest, List.mem_singleton] at h
    exact Or.inr h
  | cons hd tl ih =>
    obtain ⟨k, r0, d0⟩ := hd
    simp only [insertLatest] at h
    by_cases hk : k = b
    · rw [if_pos hk] at h
      by_cases hlt : dateLtB d0 d = true
      · rw [if_pos hlt] at h
        rcases List.mem_cons.1 h with h | h
        · exact Or.inr (by rw [h, hk])
        · exact Or.inl (List.mem_cons_of_mem _ h)
      · rw [if_neg hlt] at h
        exact Or.inl h
    · rw [if_neg hk] at h
      rcases List.mem_cons.1 h with h | h
      · exact Or.inl (by rw [h]; exact List.mem_cons_self _ _)
      · rcases ih h with h | h
        · exact Or.inl (List.mem_cons_of_mem _ h)
        · exact Or.inr h

theorem insertLatest_of_not_mem {m : List (Str × Row × PyDate)} {b : Str} {r : Row}
    {d : PyDate} (h : b ∉ m.map Prod.fst) :
    insertLatest m b r d = m ++ [(b, r, d)] := by
  induction m with
  | nil => rfl
  | cons hd tl ih =>
    obtain ⟨k, r0, d0⟩ := hd
    rw [List.map_cons, List.mem_cons] at h
    push_neg at h
    have hkb : ¬ k = b := fun he => h.1 (show b = (k, r0, d0).1 from he.symm)
    simp only [insertLatest, if_neg hkb]
    rw [ih h.2, List.cons_append]

theorem insertLatest_keys_of_mem {m : List (Str × Row × PyDate)} {b : Str} {r : Row}
    {d : PyDate} (h : b ∈ m.map Prod.fst) :
    (insertLatest m b r d).map Prod.fst = m.map Prod.fst := by
  induction m with
  | nil => cases h
  | cons hd tl ih =>
    obtain ⟨k, r0, d0⟩ := hd
    simp only [insertLatest]
    by_cases hk : k = b
    · rw [if_pos hk]
      by_cases hlt : dateLtB d0 d = true
      · rw [if_pos hlt]; simp [hk]
      · rw [if_neg hlt]
    · rw [if_neg hk]
      rw [List.map_cons, List.mem_cons] at h
      rcases h with h | h
      · exact absurd h.symm hk
      · simp only [List.map_cons, ih h]

theorem insertLatest_keep {m : List (Str × Row × PyDate)} {b : Str} {rp r : Row}
    {dp d : PyDate} (hnd : (m.map Prod.fst).Nodup) (hmem : (b, rp, dp) ∈ m)
    (h : dateLtB dp d = false) : insertLatest m b r d = m := by
  induction m with
  | nil => cases hmem
  | cons hd tl ih =>
    obtain ⟨k, r0, d0⟩ := hd
    rw [List.map_cons, List.nodup_cons] at hnd
    simp only [insertLatest]
    by_cases hk : k = b
    · rw [if_pos hk]
      have he : (r0, d0) = (rp, dp) := by
        rcases List.mem_cons.1 hmem with hm | hm
        · exact (congrArg Prod.snd hm.symm)
        · exfalso
          exact hnd.1 (by rw [hk]; exact List.mem_map.2 ⟨(b, rp, dp), hm, rfl⟩)
      have hd0 : d0 = dp := congrArg Prod.snd he
      rw [if_neg (by rw [hd0, h]; exact Bool.false_ne_true)]
    · rw [if_neg hk]
      have hm : (b, rp, dp) ∈ tl := by
        rcases List.mem_cons.1 hmem with hm | hm
        · exact absurd (congrArg Prod.fst hm).symm hk
        · exact hm
      rw [ih hnd.2 hm]

theorem insertLatest_mem_replace {m : List (Str × Row × PyDate)} {b : Str} {rp r : Row}
    {dp d : PyDate} (hnd : (m.map Prod.fst).Nodup) (hmem : (b, rp, dp) ∈ m)
    (hrep : dateLtB dp d = true)
    {t : Str × Row × PyDate} (ht : t ∈ insertLatest m b r d) :
    (t ∈ m ∧ t.1 ≠ b) ∨ t = (b, r, d) := by
  induction m with
  | nil => cases hmem
  | cons hd tl ih =>
    obtain ⟨k, r0, d0⟩ := hd
    rw [List.map_cons, List.nodup_cons] at hnd
    simp only [insertLatest] at ht
    by_cases hk : k = b
    · subst hk
      have htl : ∀ u ∈ tl, (u : Str × Row × PyDate).1 ≠ k := by
        intro u hu he
        apply hnd.1
        rw [show ((k, r0, d0) : Str × Row × PyDate).1 = k from rfl, ← he]
        exact List.mem_map.2 ⟨u, hu, rfl⟩
      have hd0 : d0 = dp := by
        rcases List.mem_cons.1 hmem with hm | hm
        · exact (congrArg (fun p : Str × Row × PyDate => p.2.2) hm).symm
        · exact absurd rfl (htl _ hm)
      rw [if_pos rfl, hd0, if_pos hrep] at ht
      rcases List.mem_cons.1 ht with h | h
      · exact Or.inr h
      · exact Or.inl ⟨List.mem_cons_of_mem _ h, htl _ h⟩
    · rw [if_neg hk] at ht
      have hm : (b, rp, dp) ∈ tl := by
        rcases List.mem_cons.1 hmem with hm | hm
        · exact absurd (congrArg Prod.fst hm).symm hk
        · exact hm
      rcases List.mem_cons.1 ht with h | h
      · exact Or.inl ⟨by rw [h]; exact List.mem_cons_self _ _, by rw [h]; exact hk⟩
      · rcases ih hnd.2 hm h with ⟨h1, h2⟩ | h1
        · exact Or.inl ⟨List.mem_cons_of_mem _ h1, h2⟩
        · exact Or.inr h1

theorem latestInv_step {seen : List Row} {m : List (Str × Row × PyDate)} {r0 : Row}
    (h : latestInv seen m) : latestInv (seen ++ [r0]) (stepLatest m r0) := by
  obtain ⟨hnd, hsrc, hdom, hcov⟩ := h
  unfold latestInv stepLatest
  by_cases hnm : nmOf r0 = []
  · rw [if_pos hnm]
    refine ⟨hnd, ?_, ?_, ?_⟩
    · intro t ht
      obtain ⟨s1, s2, s3, s4⟩ := hsrc t ht
      exact ⟨List.mem_append_left _ s1, s2, s3, s4⟩
    · intro t ht r hr
      rcases List.mem_append.1 hr with hr | hr
      · exact hdom t ht r hr
      · rw [List.mem_singleton] at hr
        subst hr
        intro hne
        exact absurd hnm hne
    · intro r hr
      rcases List.mem_append.1 hr with hr | hr
      · exact hcov r hr
      · rw [List.mem_singleton] at hr
        subst hr
        intro hne
        exact absurd hnm hne
  · rw [if_neg hnm]
    cases hpd : parse_date r0.isduota with
    | none =>
      refine ⟨hnd, ?_, ?_, ?_⟩
      · intro t ht
        obtain ⟨s1, s2, s3, s4⟩ := hsrc t ht
        exact ⟨List.mem_append_left _ s1, s2, s3, s4⟩
      · intro t ht r hr
        rcases List.mem_append.1 hr with hr | hr
        · exact hdom t ht r hr
        · rw [List.mem_singleton] at hr
          subst hr
          intro _ _ d hd
          rw [hpd] at hd
          cases hd
      · intro r hr
        rcases List.mem_append.1 hr with hr | hr
        · exact hcov r hr
        · rw [List.mem_singleton] at hr
          subst hr
          intro _ hs
          rw [hpd] at hs
          cases hs
    | some d0 =>
      dsimp only
      by_cases hkey : baseOf r0 ∈ m.map Prod.fst
      · obtain ⟨rp, dp, hmem⟩ := mem_keys_exists hkey
        by_cases hrep : dateLtB dp d0 = true
        · have hkeys : (insertLatest m (baseOf r0) r0 d0).map Prod.fst = m.map Prod.fst :=
            insertLatest_keys_of_mem hkey
          refine ⟨by rw [hkeys]; exact hnd, ?_, ?_, ?_⟩
          · intro t ht
            rcases insertLatest_mem_replace hnd hmem hrep ht with ⟨h1, _⟩ | h1
            · obtain ⟨s1, s2, s3, s4⟩ := hsrc t h1
              exact ⟨List.mem_append_left _ s1, s2, s3, s4⟩
            · subst h1
              exact ⟨List.mem_append_right _ (List.mem_singleton.2 rfl), rfl, hnm, hpd⟩
          · intro t ht r hr
            rcases insertLatest_mem_replace hnd hmem hrep ht with ⟨h1, h2⟩ | h1
            · rcases List.mem_append.1 hr with hr | hr
              · exact hdom t h1 r hr
              · rw [List.mem_singleton] at hr
                subst hr
                intro _ hbase d hd
                exact absurd hbase.symm h2
            · subst h1
              rcases List.mem_append.1 hr with hr | hr
              · intro hne hbase d hd
                have hle : dateLeB d dp = true := hdom _ hmem r hr hne hbase d hd
                exact dateLeB_trans_lt hle hrep
              · rw [List.mem_singleton] at hr
                subst hr
                intro _ _ d hd
                rw [hpd] at hd
                injection hd with hd
                subst hd
                exact dateLeB_refl _
          · intro r hr
            rcases List.mem_append.1 hr with hr | hr
            · intro hne hs
              rw [hkeys]
              exact hcov r hr hne hs
            · rw [List.mem_singleton] at hr
              subst hr
              intro _ _
              rw [hkeys]
              exact hkey
        · have hrepf : dateLtB dp d0 = false := by rwa [Bool.not_eq_true] at hrep
          rw [insertLatest_keep hnd hmem hrepf]
          refine ⟨hnd, ?_, ?_, ?_⟩
          · intro t ht
            obtain ⟨s1, s2, s3, s4⟩ := hsrc t ht
            exact ⟨List.mem_append_left _ s1, s2, s3, s4⟩
          · intro t ht r hr
            rcases List.mem_append.1 hr with hr | hr
            · exact hdom t ht r hr
            · rw [List.mem_singleton] at hr
              subst hr
              intro hne hbase d hd
              rw [hpd] at hd
              injection hd with hd
              subst hd
              have hmem2 : (t.1, rp, dp) ∈ m := by rw [← hbase]; exact hmem
              have hv := keys_unique hnd hmem2 (show (t.1, t.2) ∈ m from ht)
              have hdp : dp = t.2.2 := congrArg Prod.snd hv
              rw [← hdp]
              exact dateLeB_of_not_lt hrepf
          · intro r hr
            rcases List.mem_append.1 hr with hr | hr
            · exact hcov r hr
            · rw [List.mem_singleton] at hr
              subst hr
              intro _ _
              exact hkey
      · rw [insertLatest_of_not_mem hkey]
        refine ⟨?_, ?_, ?_, ?_⟩
        · simp only [List.map_append, List.map_cons, List.map_nil]
          refine List.Nodup.append hnd (List.nodup_singleton _) ?_
          intro x hx hx'
          rw [List.mem_singleton] at hx'
          subst hx'
          exact hkey hx
        · intro t ht
          rcases List.mem_append.1 ht with ht | ht
          · obtain ⟨s1, s2, s3, s4⟩ := hsrc t ht
            exact ⟨List.mem_append_left _ s1, s2, s3, s4⟩
          · rw [List.mem_singleton] at ht
            subst ht
            exact ⟨List.mem_append_right _ (List.mem_singleton.2 rfl), rfl, hnm, hpd⟩
        · intro t ht r hr
          rcases List.mem_append.1 ht with htm | hts
          · rcases List.mem_append.1 hr with hr | hr
            · exact hdom t htm r hr
            · rw [List.mem_singleton] at hr
              subst hr
              intro _ hbase d hd
              refine absurd ?_ hkey
              rw [hbase]
              exact List.mem_map.2 ⟨t, htm, rfl⟩
          · rw [List.mem_singleton] at hts
            subst hts
            rcases List.mem_append.1 hr with hr | hr
            · intro hne hbase d hd
              have hb2 : baseOf r = baseOf r0 := hbase
              have hsome : (parse_date r.isduota).isSome = true := by rw [hd]; rfl
              exact absurd (hb2 ▸ hcov r hr hne hsome) hkey
            · rw [List.mem_singleton] at hr
              subst hr
              intro _ _ d hd
              rw [hpd] at hd
              injection hd with hd
              subst hd
              exact dateLeB_refl _
        · intro r hr
          rcases List.mem_append.1 hr with hr | hr
          · intro hne hs
            rw [List.map_append]
            exact List.mem_append_left _ (hcov r hr hne hs)
          · rw [List.mem_singleton] at hr
            subst hr
            intro _ _
            rw [List.map_append]
            refine List.mem_append_right _ ?_
            exact List.mem_map.2 ⟨(baseOf r, r, d0), List.mem_singleton.2 rfl, rfl⟩

theorem latestInv_foldl :
    ∀ (rest seen : List Row) (m : List (Str × Row × PyDate)), latestInv seen m →
      latestInv (seen ++ rest) (List.foldl stepLatest m rest) := by
  intro rest
  induction rest with
  | nil =>
    intro seen m h
    simpa using h
  | cons r0 rest ih =>
    intro seen m h
    have h2 := ih (seen ++ [r0]) (stepLatest m r0) (latestInv_step h)
    simpa [List.append_assoc] using h2

theorem latestInv_nil : latestInv [] [] := by
  refine ⟨List.nodup_nil, ?_, ?_, ?_⟩ <;> intro t ht <;> cases ht

theorem buildLatest_inv (rs : List Row) : latestInv rs (buildLatest rs) := by
  have h := latestInv_foldl rs [] [] latestInv_nil
  simpa [buildLatest] using h

theorem collectEntries_some {α β : Type} (f : α → Option β) :
    ∀ {l : List α} {out : List β}, collectEntries f l = some out →
      List.Forall₂ (fun a b => f a = some b) l out := by
  intro l
  induction l with
  | nil =>
    intro out h
    simp only [collectEntries, Option.some.injEq] at h
    subst h
    exact List.Forall₂.nil
  | cons t ts ih =>
    intro out h
    simp only [collectEntries] at h
    cases hf : f t with
    | none => rw [hf] at h; cases h
    | some e =>
      rw [hf] at h
      cases hrec : collectEntries f ts with
      | none => rw [hrec] at h; cases h
      | some es =>
        rw [hrec] at h
        simp only [Option.some.injEq] at h
        subst h
        exact List.Forall₂.cons hf (ih hrec)

theorem forall2_mem_right {α β : Type} {F : α → β → Prop} :
    ∀ {l : List α} {out : List β}, List.Forall₂ F l out → ∀ b ∈ out, ∃ a ∈ l, F a b := by
  intro l out h
  induction h with
  | nil => intro b hb; cases hb
  | cons hf _ ih =>
    intro b hb
    rcases List.mem_cons.1 hb with hb | hb
    · subst hb
      exact ⟨_, List.mem_cons_self _ _, hf⟩
    · obtain ⟨a, ha, hfa⟩ := ih b hb
      exact ⟨a, List.mem_cons_of_mem _ ha, hfa⟩

theorem forall2_mem_left {α β : Type} {F : α → β → Prop} :
    ∀ {l : List α} {out : List β}, List.Forall₂ F l out → ∀ a ∈ l, ∃ b ∈ out, F a b := by
  intro l out h
  induction h with
  | nil => intro a ha; cases ha
  | cons hf _ ih =>
    intro a ha
    rcases List.mem_cons.1 ha with ha | ha
    · subst ha
      exact ⟨_, List.mem_cons_self _ _, hf⟩
    · obtain ⟨b, hb, hfb⟩ := ih a ha
      exact ⟨b, List.mem_cons_of_mem _ hb, hfb⟩

theorem forall2_pairwise {α β : Type} {F : α → β → Prop} {R : α → α → Prop}
    {S : β → β → Prop}
    (himp : ∀ a b x y, F a x → F b y → R a b → S x y) :
    ∀ {l : List α} {out : List β}, List.Forall₂ F l out → List.Pairwise R l →
      List.Pairwise S out := by
  intro l out h
  induction h with
  | nil => intro _; exact List.Pairwise.nil
  | cons hf hrest ih =>
    intro hp
    rw [List.pairwise_cons] at hp
    refine List.Pairwise.cons ?_ (ih hp.2)
    intro y hy
    obtain ⟨b, hb, hfb⟩ := forall2_mem_right hrest y hy
    exact himp _ _ _ _ hf hfb (hp.1 b hb)

/-- Unfolding of a successful resolver run: the sorted output comes from a
successful pass over the grouped dict. -/
theorem gear_some {l : List Row} {e : EmployeeInfo} {today : PyDate}
    {out : List GearEntry} (h : current_gear_for_employee l e today = some out) :
    ∃ out0, collectEntries (mkEntry today) (buildLatest (relRows l e)) = some out0 ∧
      out = out0.mergeSort entryLe := by
  unfold current_gear_for_employee at h
  cases hc : collectEntries (mkEntry today) (buildLatest (relRows l e)) with
  | none => rw [hc] at h; cases h
  | some out0 =>
    rw [hc] at h
    simp only [Option.some.injEq] at h
    exact ⟨out0, rfl, h.symm⟩

/-- Shape of a successfully built output entry. -/
theorem mkEntry_some {today : PyDate} {t : Str × Row × PyDate} {en : GearEntry}
    (h : mkEntry today t = some en) :
    en.apranga = pyOrEmpty t.2.1.apranga ∧ en.kodas = pyOrEmpty t.2.1.kodas ∧
      en.isduota = parse_date t.2.1.isduota ∧
      pyIntOr0 t.2.1.susidevejimas = some en.men ∧
      ((∃ i cd, parse_date t.2.1.isduota = some i ∧ add_months i en.men = some cd ∧
          en.keistiIki = some cd ∧ en.like = some (toRD cd - toRD today)) ∨
        (parse_date t.2.1.isduota = Option.none ∧ en.keistiIki = Option.none ∧
          en.like = Option.none)) := by
  obtain ⟨b, r, d⟩ := t
  simp only [mkEntry] at h
  cases hm : pyIntOr0 r.susidevejimas with
  | none => rw [hm] at h; cases h
  | some months =>
    rw [hm] at h
    dsimp only at h
    cases hi : parse_date r.isduota with
    | none =>
      rw [hi] at h
      injection h with h
      subst h
      exact ⟨rfl, rfl, rfl, rfl, Or.inr ⟨rfl, rfl, rfl⟩⟩
    | some i =>
      rw [hi] at h
      dsimp only at h
      cases hcd : add_months i months with
      | none => rw [hcd] at h; cases h
      | some cd =>
        rw [hcd] at h
        injection h with h
        subst h
        exact ⟨rfl, rfl, rfl, rfl, Or.inl ⟨i, cd, rfl, hcd, rfl, rfl⟩⟩

theorem daysInMonth_ge (y m : Int) : 28 ≤ daysInMonth y m := by
  unfold daysInMonth
  split_ifs <;> norm_num

theorem pyDate_ext {a b : PyDate} (h1 : a.year = b.year) (h2 : a.month = b.month)
    (h3 : a.day = b.day) : a = b := by
  obtain ⟨a1, a2, a3⟩ := a
  obtain ⟨b1, b2, b3⟩ := b
  cases h1
  cases h2
  cases h3
  rfl

theorem add_months_zero {d : PyDate} (hv : ValidDate d)
    (hne : ¬(d.year = 9999 ∧ d.month = 12)) : add_months d 0 = some d := by
  obtain ⟨y, m, dd⟩ := d
  obtain ⟨hy1, hy2, hm1, hm2, hd1, hd2⟩ := hv
  dsimp only at hy1 hy2 hm1 hm2 hd1 hd2 hne
  simp only [add_months, add_zero]
  have hsmall := fdiv_fmod_small (a := m - 1) (by omega) (by omega)
  rw [hsmall.1, hsmall.2, add_zero]
  rw [show m - 1 + 1 = m from by ring]
  by_cases h12 : m = 12
  · subst h12
    have hy9 : y ≤ 9998 := by
      by_contra hy9
      exact hne ⟨by omega, rfl⟩
    have hdd31 : dd ≤ 31 := by
      rw [daysInMonth_twelve] at hd2
      exact hd2
    rw [if_pos rfl]
    rw [mkDate_of_valid ⟨by omega, by omega, by norm_num, by norm_num, by norm_num,
      by norm_num [daysInMonth]⟩]
    dsimp only
    have hdb : dayBefore ⟨y + 1, 1, 1⟩ = ⟨y + 1 - 1, 12, 31⟩ := by
      unfold dayBefore
      norm_num
    rw [hdb]
    dsimp only
    rw [min_eq_left hdd31]
    exact mkDate_of_valid ⟨hy1, hy2, by norm_num, by norm_num, hd1,
      by rw [daysInMonth_twelve]; exact hdd31⟩
  · rw [if_neg h12]
    have hge := daysInMonth_ge y (m + 1)
    rw [mkDate_of_valid ⟨hy1, hy2, by omega, by omega, by norm_num, by omega⟩]
    dsimp only
    have hdb : dayBefore ⟨y, m + 1, 1⟩ = ⟨y, m, daysInMonth y m⟩ := by
      unfold dayBefore
      dsimp only
      rw [if_neg (by norm_num), if_pos (show (1 : Int) < m + 1 from by omega)]
      rw [show m + 1 - 1 = m from by ring]
    rw [hdb]
    dsimp only
    rw [min_eq_left hd2]
    exact mkDate_of_valid ⟨hy1, hy2, hm1, hm2, hd1, hd2⟩

theorem fdiv_fmod_12 {a q r : Int} (h : a = 12 * q + r) (h0 : 0 ≤ r) (hr : r < 12) :
    a.fdiv 12 = q ∧ a.fmod 12 = r := by
  have h1 : a.fmod 12 + 12 * a.fdiv 12 = a := Int.fmod_add_fdiv a 12
  have h2 : 0 ≤ a.fmod 12 := by
    rw [Int.fmod_eq_emod _ (by norm_num)]
    exact Int.emod_nonneg a (by norm_num)
  have h3 : a.fmod 12 < 12 := Int.fmod_lt_of_pos a (by norm_num)
  omega

theorem mkDate_isSome {y m dd : Int} :
    (mkDate y m dd).isSome = true ↔
      (1 ≤ y ∧ y ≤ 9999 ∧ 1 ≤ m ∧ m ≤ 12 ∧ 1 ≤ dd ∧ dd ≤ daysInMonth y m) := by
  by_cases hc : 1 ≤ y ∧ y ≤ 9999 ∧ 1 ≤ m ∧ m ≤ 12 ∧ 1 ≤ dd ∧ dd ≤ daysInMonth y m
  · unfold mkDate
    rw [if_pos hc]
    simp [hc]
  · unfold mkDate
    rw [if_neg hc]
    simp [hc]

theorem mkDate_eq_none_of_year {y m dd : Int} (h : ¬(1 ≤ y ∧ y ≤ 9999)) :
    mkDate y m dd = Option.none := by
  unfold mkDate
  rw [if_neg]
  intro hc
  exact h ⟨hc.1, hc.2.1⟩

/-- Definedness of `add_months` on a valid start date: the call succeeds
exactly when the target month — month index `monthIdx d + n`, i.e. year
`(monthIdx d + n).fdiv 12` and zero-based month `(monthIdx d + n).fmod 12` —
stays within Python's date range: year 1..9999, excluding December 9999
(whose first-of-next-month computation overflows). -/
theorem add_months_isSome (d : PyDate) (n : Int) (hv : ValidDate d) :
    (add_months d n).isSome = true ↔
      (1 ≤ (monthIdx d + n).fdiv 12 ∧
        ((monthIdx d + n).fdiv 12 ≤ 9998 ∨
          ((monthIdx d + n).fdiv 12 = 9999 ∧ (monthIdx d + n).fmod 12 ≠ 11))) := by
  obtain ⟨hy1, hy2, hm1, hm2, hd1, hd2⟩ := hv
  simp only [add_months]
  have hb1 : 0 ≤ (d.month - 1 + n).fmod 12 := by
    rw [Int.fmod_eq_emod _ (by norm_num)]
    exact Int.emod_nonneg _ (by norm_num)
  have hb2 : (d.month - 1 + n).fmod 12 < 12 := Int.fmod_lt_of_pos _ (by norm_num)
  have hm0 : (d.month - 1 + n).fmod 12 + 12 * (d.month - 1 + n).fdiv 12 =
      d.month - 1 + n := Int.fmod_add_fdiv _ 12
  set q := (d.month - 1 + n).fdiv 12 with hqdef
  set w := (d.month - 1 + n).fmod 12 with hwdef
  have ha : monthIdx d + n = 12 * (d.year + q) + w := by
    simp only [monthIdx]
    omega
  have hqq := fdiv_fmod_12 ha hb1 hb2
  rw [hqq.1, hqq.2]
  by_cases hw : w + 1 = 12
  · rw [if_pos hw]
    by_cases hy : 1 ≤ d.year + q + 1 ∧ d.year + q + 1 ≤ 9999
    · rw [mkDate_of_valid ⟨hy.1, hy.2, by norm_num, by norm_num, by norm_num,
        by norm_num [daysInMonth]⟩]
      dsimp only
      have hdb : (dayBefore ⟨d.year + q + 1, 1, 1⟩).day = 31 := by
        unfold dayBefore
        norm_num
      rw [hdb, mkDate_isSome, hw, daysInMonth_twelve]
      have hmin1 : 1 ≤ min d.day (31 : Int) := le_min hd1 (by norm_num)
      have hmin2 : min d.day (31 : Int) ≤ 31 := min_le_right _ _
      omega
    · rw [mkDate_eq_none_of_year hy]
      dsimp only
      simp only [Option.isSome_none, Bool.false_eq_true, false_iff]
      omega
  · rw [if_neg hw]
    by_cases hy : 1 ≤ d.year + q ∧ d.year + q ≤ 9999
    · have hdm := daysInMonth_ge (d.year + q) (w + 1 + 1)
      rw [mkDate_of_valid ⟨hy.1, hy.2, by omega, by omega, by norm_num, by omega⟩]
      dsimp only
      have hdb : (dayBefore ⟨d.year + q, w + 1 + 1, 1⟩).day =
          daysInMonth (d.year + q) (w + 1) := by
        unfold dayBefore
        dsimp only
        rw [if_neg (by norm_num), if_pos (show (1 : Int) < w + 1 + 1 from by omega)]
        rw [show w + 1 + 1 - 1 = w + 1 from by ring]
      rw [hdb, mkDate_isSome]
      have hdm2 := daysInMonth_ge (d.year + q) (w + 1)
      have hmin1 : 1 ≤ min d.day (daysInMonth (d.year + q) (w + 1)) :=
        le_min hd1 (by omega)
      have hmin2 : min d.day (daysInMonth (d.year + q) (w + 1)) ≤
          daysInMonth (d.year + q) (w + 1) := min_le_right _ _
      omega
    · rw [mkDate_eq_none_of_year hy]
      dsimp only
      simp only [Option.isSome_none, Bool.false_eq_true, false_iff]
      omega

/-- C10 counterexample: `add_months` is not total over valid dates and
arbitrary integers — at the valid date 2024-01-31 with `n = -24288` the
computed year is 0, so Python's `date(...)` constructor raises
`ValueError`. -/
theorem c10_add_months_not_total :
    ValidDate ⟨2024, 1, 31⟩ ∧ add_months ⟨2024, 1, 31⟩ (-24288) = Option.none :=
  ⟨by decide, by decide⟩

/-- C10 (amended): on a valid date, `add_months` is defined exactly when the
target month stays in Python's date range — target year `1..9999`, excluding
December 9999 (where the last-day computation overflows); month arithmetic
uses floor division so every successful result moves the month index by
exactly `n` (negative offsets move backwards correctly); `n = 0` is an
identity on every valid date except December 9999; consequently a resolver
entry with `wear_months = 0` carries a wear-out date equal to its issue date
rather than no wear-out date. -/
theorem c10_add_months_amended :
    (∀ (d : PyDate) (n : Int), ValidDate d →
      ((add_months d n).isSome = true ↔
        (1 ≤ (monthIdx d + n).fdiv 12 ∧
          ((monthIdx d + n).fdiv 12 ≤ 9998 ∨
            ((monthIdx d + n).fdiv 12 = 9999 ∧ (monthIdx d + n).fmod 12 ≠ 11)))))
    ∧ (∀ d : PyDate, ValidDate d → ¬(d.year = 9999 ∧ d.month = 12) →
      add_months d 0 = some d)
    ∧ (∀ (d : PyDate) (n : Int) (res : PyDate), add_months d n = some res →
        monthIdx res = monthIdx d + n)
    ∧ (∀ (l : List Row) (e : EmployeeInfo) (today : PyDate) (out : List GearEntry)
        (en : GearEntry) (i : PyDate), current_gear_for_employee l e today = some out →
        en ∈ out → en.men = 0 → en.isduota = some i → ValidDate i →
        en.keistiIki = some i) := by
  refine ⟨fun d n hv => add_months_isSome d n hv,
    fun d hv hne => add_months_zero hv hne, ?_, ?_⟩
  · intro d n res h
    exact (add_months_spec d n res h).2.1
  · intro l e today out en i h hmem hmen hiss hvi
    obtain ⟨out0, hc, hsort⟩ := gear_some h
    have hmem0 : en ∈ out0 := by
      rw [hsort] at hmem
      exact (List.mergeSort_perm out0 entryLe).mem_iff.1 hmem
    obtain ⟨t, ht, hf⟩ := forall2_mem_right (collectEntries_some _ hc) en hmem0
    obtain ⟨_, _, hisd, _, hrest⟩ := mkEntry_some hf
    rcases hrest with ⟨i2, cd, hpi, hadd, hki, _⟩ | ⟨hpn, _, _⟩
    · rw [hisd, hpi] at hiss
      injection hiss with hii
      subst hii
      rw [hmen] at hadd
      obtain ⟨hvr, hmi, hday⟩ := add_months_spec i2 0 cd hadd
      have hym : cd.year = i2.year ∧ cd.month = i2.month := by
        obtain ⟨_, _, km1, km2, _, _⟩ := hvi
        obtain ⟨_, _, km1', km2', _, _⟩ := hvr
        simp only [monthIdx] at hmi
        omega
      have hdayi : cd.day = i2.day := by
        rw [hday, hym.1, hym.2]
        exact min_eq_left hvi.2.2.2.2.2
      rw [hki, pyDate_ext hym.1 hym.2 hdayi]
    · obtain ⟨_, hinv, _, _⟩ := buildLatest_inv (relRows l e)
      obtain ⟨_, _, _, hp⟩ := hinv t ht
      rw [hp] at hpn
      cases hpn

/-- Witness for C10 (amended): the definedness criterion evaluated at
`d = 2024-01-31`, `n = 1`, and the identity clause at `d = 2024-05-31`. -/
theorem c10_add_months_amended_witness :
    ((add_months ⟨2024, 1, 31⟩ 1).isSome = true ↔
      (1 ≤ (monthIdx ⟨2024, 1, 31⟩ + 1).fdiv 12 ∧
        ((monthIdx ⟨2024, 1, 31⟩ + 1).fdiv 12 ≤ 9998 ∨
          ((monthIdx ⟨2024, 1, 31⟩ + 1).fdiv 12 = 9999 ∧
            (monthIdx ⟨2024, 1, 31⟩ + 1).fmod 12 ≠ 11))))
    ∧ add_months ⟨2024, 5, 31⟩ 0 = some ⟨2024, 5, 31⟩ :=
  ⟨c10_add_months_amended.1 ⟨2024, 1, 31⟩ 1 (by decide),
    c10_add_months_amended.2.1 ⟨2024, 5, 31⟩ (by decide) (by decide)⟩

theorem docNums_append (l₁ l₂ : List Row) :
    docNums (l₁ ++ l₂) = docNums l₁ ++ docNums l₂ := by
  simp [docNums, loadRows, List.filter_append]

theorem le_maxList : ∀ (xs : List Int) (x v : Int), v ∈ x :: xs → v ≤ maxList x xs := by
  intro xs
  induction xs with
  | nil =>
    intro x v hv
    rw [List.mem_singleton] at hv
    subst hv
    exact le_refl _
  | cons y ys ih =>
    intro x v hv
    have hstep : maxList x (y :: ys) = maxList (max x y) ys := rfl
    rw [hstep]
    rcases List.mem_cons.1 hv with hv | hv
    · subst hv
      exact le_trans (le_max_left v y) (ih (max v y) _ (List.mem_cons_self _ _))
    · rcases List.mem_cons.1 hv with hv | hv
      · subst hv
        exact le_trans (le_max_right x v) (ih (max x v) _ (List.mem_cons_self _ _))
      · exact ih (max x y) v (List.mem_cons_of_mem _ hv)

theorem maxList_mem : ∀ (xs : List Int) (x : Int), maxList x xs ∈ x :: xs := by
  intro xs
  induction xs with
  | nil => intro x; exact List.mem_singleton.2 rfl
  | cons y ys ih =>
    intro x
    have hstep : maxList x (y :: ys) = maxList (max x y) ys := rfl
    rw [hstep]
    have h := ih (max x y)
    rcases List.mem_cons.1 h with h | h
    · rcases max_choice x y with hc | hc
      · rw [h, hc]; exact List.mem_cons_self _ _
      · rw [h, hc]; exact List.mem_cons_of_mem _ (List.mem_cons_self _ _)
    · exact List.mem_cons_of_mem _ (List.mem_cons_of_mem _ h)

theorem next_eq_of_max {l : List Row} {m : Int} (hm : m ∈ docNums l)
    (hmax : ∀ v ∈ docNums l, v ≤ m) : next_document_number l = m + 1 := by
  unfold next_document_number
  cases hd : docNums l with
  | nil => rw [hd] at hm; cases hm
  | cons x xs =>
    rw [hd] at hm hmax
    dsimp only
    have h1 : maxList x xs ≤ m := hmax _ (maxList_mem xs x)
    have h2 : m ≤ maxList x xs := le_maxList xs x m hm
    omega

theorem append_issuance_eq (l : List Row) (e : EmployeeInfo) (items : List Item)
    (docNo : Int) (d : PyDate) :
    append_issuance l e items docNo d = items.map (mkIssuanceRow e docNo d) ++ l := by
  induction items with
  | nil => rfl
  | cons it its ih =>
    unfold append_issuance at ih ⊢
    rw [List.reverse_cons, List.foldl_append, ih]
    rfl

theorem docNums_issuance (e : EmployeeInfo) (docNo : Int) (d : PyDate)
    (hne : docNo ≠ 0) :
    ∀ items : List Item, docNums (items.map (mkIssuanceRow e docNo d)) =
      items.map (fun _ => docNo) := by
  intro items
  induction items with
  | nil => rfl
  | cons it its ih =>
    have ht : rowTruthy (mkIssuanceRow e docNo d it) = true := by
      simp [rowTruthy, mkIssuanceRow, CellVal.truthy, hne]
    have hv : numerisVal (mkIssuanceRow e docNo d it).numeris = some docNo := by
      simp [numerisVal, mkIssuanceRow, CellVal.pyInt]
    simp only [List.map_cons, docNums, loadRows, List.filter_cons, ht, if_true,
      List.filterMap_cons, hv]
    simp only [docNums, loadRows] at ih
    rw [ih]

/-- C3: `next_document_number` returns 1 on an empty ledger; a row whose
`Numeris` is empty, `None`, or non-numeric never affects the result; when a
maximal parsable `Numeris` value `m` exists the result is `m + 1`; and after
appending a batch under document number 5 to a ledger with no larger parsable
number, the next call returns 6. -/
theorem c3_next_document_number :
    next_document_number [] = 1
    ∧ (∀ (l : List Row) (r : Row), numerisVal r.numeris = Option.none →
        next_document_number (l ++ [r]) = next_document_number l)
    ∧ (∀ (l : List Row) (m : Int), m ∈ docNums l → (∀ v ∈ docNums l, v ≤ m) →
        next_document_number l = m + 1)
    ∧ (∀ (l : List Row) (e : EmployeeInfo) (items : List Item) (d : PyDate),
        items ≠ [] → (∀ v ∈ docNums l, v ≤ 5) →
        next_document_number (append_issuance l e items 5 d) = 6) := by
  refine ⟨by decide, ?_, fun l m hm hmax => next_eq_of_max hm hmax, ?_⟩
  · intro l r hr
    unfold next_document_number
    rw [docNums_append]
    have h0 : docNums [r] = [] := by
      unfold docNums loadRows
      cases ht : rowTruthy r
      · simp [List.filter_cons, ht]
      · simp [List.filter_cons, ht, List.filterMap_cons, hr]
    rw [h0, List.append_nil]
  · intro l e items d hy hmax
    rw [append_issuance_eq]
    have h6 : next_document_number (items.map (mkIssuanceRow e 5 d) ++ l) = 5 + 1 := by
      apply next_eq_of_max
      · rw [docNums_append, docNums_issuance e 5 d (by norm_num)]
        cases items with
        | nil => exact absurd rfl hy
        | cons it its =>
          exact List.mem_append_left _ (List.mem_cons_self _ _)
      · intro v hv
        rw [docNums_append, docNums_issuance e 5 d (by norm_num)] at hv
        rcases List.mem_append.1 hv with hv | hv
        · obtain ⟨_, _, hveq⟩ := List.mem_map.1 hv
          omega
        · exact hmax v hv
    exact h6.trans (by norm_num)

/-- Witness for C3: a concrete batch of one item appended to the empty ledger
under document number 5 makes the next document number 6. -/
theorem c3_next_document_number_witness :
    next_document_number (append_issuance [] empW [itemW] 5 todayW) = 6 :=
  c3_next_document_number.2.2.2 [] empW [itemW] todayW (by decide) (by decide)

/-- C8: `append_issuance` writes exactly one ledger record per item; every
record of the batch carries the document number, the ISO issue date, and the
employee's name, personnel number, department, position and gender as they
were at the time of the call; and all previously written records are left
unchanged below the batch. -/
theorem c8_append_issuance_batch (l : List Row) (e : EmployeeInfo) (items : List Item)
    (docNo : Int) (d : PyDate) :
    (append_issuance l e items docNo d).length = items.length + l.length
    ∧ (∀ r ∈ (append_issuance l e items docNo d).take items.length,
        r.numeris = CellVal.int docNo ∧ r.vardas = CellVal.str e.name ∧
        r.tabNr = CellVal.str e.tab_nr ∧ r.padalinys = CellVal.str e.department ∧
        r.pareigos = CellVal.str e.position ∧ r.lytis = CellVal.str e.gender ∧
        r.isduota = CellVal.str (isoStr d))
    ∧ (append_issuance l e items docNo d).drop items.length = l := by
  rw [append_issuance_eq]
  refine ⟨?_, ?_, ?_⟩
  · rw [List.length_append, List.length_map]
  · intro r hr
    rw [← List.length_map items (mkIssuanceRow e docNo d), List.take_left] at hr
    obtain ⟨it, _, heq⟩ := List.mem_map.1 hr
    subst heq
    exact ⟨rfl, rfl, rfl, rfl, rfl, rfl, rfl⟩
  · rw [← List.length_map items (mkIssuanceRow e docNo d), List.drop_left]

/-- Witness for C8 at a concrete one-item batch. -/
theorem c8_append_issuance_batch_witness :
    (append_issuance [] empW [itemW] 7 todayW).length = [itemW].length + ([] : List Row).length
    ∧ (∀ r ∈ (append_issuance [] empW [itemW] 7 todayW).take [itemW].length,
        r.numeris = CellVal.int 7 ∧ r.vardas = CellVal.str empW.name ∧
        r.tabNr = CellVal.str empW.tab_nr ∧ r.padalinys = CellVal.str empW.department ∧
        r.pareigos = CellVal.str empW.position ∧ r.lytis = CellVal.str empW.gender ∧
        r.isduota = CellVal.str (isoStr todayW))
    ∧ (append_issuance [] empW [itemW] 7 todayW).drop [itemW].length = [] :=
  c8_append_issuance_batch [] empW [itemW] 7 todayW

/-- Evaluation helper: a successful pass over the grouped dict determines the
resolver output up to the final sort. -/
theorem gear_eval (l : List Row) (e : EmployeeInfo) (today : PyDate)
    (out0 : List GearEntry)
    (hc : collectEntries (mkEntry today) (buildLatest (relRows l e)) = some out0) :
    current_gear_for_employee l e today = some (out0.mergeSort entryLe) := by
  unfold current_gear_for_employee
  rw [hc]

/-- C5 (code-bug evidence): on a winning row whose wear-months cell is the
non-numeric string "abc", `current_gear_for_employee` hits the unguarded
`int(...)` call and the read aborts (first conjunct), whereas a row with an
unparsable issue date is skipped gracefully and the resolver still returns a
result (second conjunct). -/
theorem c5_malformed_rows :
    current_gear_for_employee [rowBadMonths] empW todayW = Option.none
    ∧ current_gear_for_employee [rowBadDate] empW todayW = some [] :=
  ⟨by decide, by
    rw [gear_eval [rowBadDate] empW todayW [] (by decide), List.mergeSort_nil]⟩

/-- C4 counterexample: for a surviving record with `wear_months = 0` the
resolver still produces a wear-out date (the issue date itself) instead of
leaving it absent. -/
theorem c4_wear_months_zero_defined :
    current_gear_for_employee [rowZeroMonths] empW todayW = some [entryZero]
    ∧ entryZero.men ≤ 0 ∧ entryZero.keistiIki ≠ Option.none :=
  ⟨by rw [gear_eval [rowZeroMonths] empW todayW [entryZero] (by decide),
      List.mergeSort_singleton],
    by decide, by decide⟩

/-- C4 (amended): for every surviving record the wear-out date is always
defined — also when `wear_months <= 0` — and equals
`add_months issued_on wear_months`, with
`remaining_days = wear_out_date - today`. -/
theorem c4_wear_out_remaining :
    ∀ (l : List Row) (e : EmployeeInfo) (today : PyDate) (out : List GearEntry)
      (en : GearEntry), current_gear_for_employee l e today = some out → en ∈ out →
      ∃ i cd, en.isduota = some i ∧ add_months i en.men = some cd ∧
        en.keistiIki = some cd ∧ en.like = some (toRD cd - toRD today) := by
  intro l e today out en h hmem
  obtain ⟨out0, hc, hsort⟩ := gear_some h
  have hmem0 : en ∈ out0 := by
    rw [hsort] at hmem
    exact (List.mergeSort_perm out0 entryLe).mem_iff.1 hmem
  obtain ⟨t, ht, hf⟩ := forall2_mem_right (collectEntries_some _ hc) en hmem0
  obtain ⟨_, _, hisd, _, hrest⟩ := mkEntry_some hf
  rcases hrest with ⟨i, cd, hpi, hadd, hki, hlk⟩ | ⟨hpn, _, _⟩
  · exact ⟨i, cd, by rw [hisd, hpi], hadd, hki, hlk⟩
  · obtain ⟨_, hinv, _, _⟩ := buildLatest_inv (relRows l e)
    obtain ⟨_, _, _, hp⟩ := hinv t ht
    rw [hp] at hpn
    cases hpn

/-- Witness for C4 (amended) on the one-row ledger `[rowA]`. -/
theorem c4_wear_out_remaining_witness :
    ∃ i cd, entryA.isduota = some i ∧ add_months i entryA.men = some cd ∧
      entryA.keistiIki = some cd ∧ entryA.like = some (toRD cd - toRD todayW) :=
  c4_wear_out_remaining [rowA] empW todayW [entryA] entryA
    (by rw [gear_eval [rowA] empW todayW [entryA] (by decide), List.mergeSort_singleton])
    (List.mem_singleton.2 rfl)

theorem pyStrip_eq_self {x : Str} (h : pyStrip x = x) :
    x.dropWhile isWS = x ∧ x.reverse.dropWhile isWS = x.reverse := by
  unfold pyStrip at h
  have l1 : (x.dropWhile isWS).length ≤ x.length :=
    (List.dropWhile_sublist isWS).length_le
  have l2 : ((x.dropWhile isWS).reverse.dropWhile isWS).length ≤
      (x.dropWhile isWS).length := by
    have hle := (List.dropWhile_sublist (l := (x.dropWhile isWS).reverse) isWS).length_le
    rwa [List.length_reverse] at hle
  have l3 : ((x.dropWhile isWS).reverse.dropWhile isWS).length = x.length := by
    have hc := congrArg List.length h
    rwa [List.length_reverse] at hc
  have e1 : (x.dropWhile isWS).length = x.length := by omega
  have hd1 : x.dropWhile isWS = x := (List.dropWhile_sublist isWS).eq_of_length e1
  rw [hd1] at h
  refine ⟨hd1, ?_⟩
  have h2 := congrArg List.reverse h
  rwa [List.reverse_reverse] at h2

theorem head_not_ws {x : Str} (hx : x.dropWhile isWS = x) :
    ∀ c cs, x = c :: cs → isWS c = false := by
  intro c cs he
  subst he
  rw [List.dropWhile_cons] at hx
  by_cases hc : isWS c = true
  · rw [if_pos hc] at hx
    have hlen := congrArg List.length hx
    have hle : (cs.dropWhile isWS).length ≤ cs.length :=
      (List.dropWhile_sublist isWS).length_le
    simp only [List.length_cons] at hlen
    omega
  · rwa [Bool.not_eq_true] at hc

theorem dropWhile_append_of_ne {x s : Str} (hx : x.dropWhile isWS = x)
    (hne : x ≠ []) : (x ++ s).dropWhile isWS = x ++ s := by
  cases x with
  | nil => exact absurd rfl hne
  | cons c cs =>
    have hc := head_not_ws hx c cs rfl
    rw [List.cons_append, List.dropWhile_cons, hc]
    rw [if_neg Bool.false_ne_true]

theorem pyStrip_append_nonws {x s : Str} (hpx : pyStrip x = x) (hxne : x ≠ [])
    (hsne : s ≠ []) (hs : s.reverse.dropWhile isWS = s.reverse) :
    pyStrip (x ++ s) = x ++ s := by
  obtain ⟨hx1, _⟩ := pyStrip_eq_self hpx
  have hrne : s.reverse ≠ [] := by
    intro hrev
    apply hsne
    rw [← List.reverse_reverse s, hrev]
    rfl
  unfold pyStrip
  rw [dropWhile_append_of_ne hx1 hxne, List.reverse_append]
  rw [dropWhile_append_of_ne hs hrne]
  rw [← List.reverse_append, List.reverse_reverse]

theorem pyStrip_append_space {x : Str} (hpx : pyStrip x = x) :
    pyStrip (x ++ [' ']) = x := by
  obtain ⟨hx1, hx2⟩ := pyStrip_eq_self hpx
  by_cases hxe : x = []
  · subst hxe
    decide
  · unfold pyStrip
    rw [dropWhile_append_of_ne hx1 hxe]
    have h3 : (x ++ [' ']).reverse = ' ' :: x.reverse := by
      rw [List.reverse_append]
      rfl
    rw [h3, List.dropWhile_cons, if_pos (show isWS ' ' = true from rfl)]
    rw [hx2, List.reverse_reverse]

theorem beforeLast_append {a b2 : Str} {c : Char} (h : c ∉ b2) :
    beforeLast c (a ++ c :: b2) = a := by
  induction a with
  | nil =>
    unfold beforeLast
    simp only [List.nil_append]
    rw [if_neg h]
  | cons x xs ih =>
    rw [List.cons_append]
    unfold beforeLast
    rw [if_pos (List.mem_append_right _ (List.mem_cons_self _ _))]
    rw [ih]

/-- C7 (amended): for every whitespace-trimmed display name `x` that does not
end in a parenthesized group (it does not both contain `'('` and end with
`')'`), stripping the size suffix after reapplying one is a lossless round
trip: `strip (ensure (strip x) "32") = x`. -/
theorem c7_round_trip :
    ∀ x : Str, pyStrip x = x → ¬('(' ∈ x ∧ x.getLast? = some ')') →
      strip_size_suffix (ensure_size_suffix (strip_size_suffix x) ("32".toList)) = x := by
  intro x hpx hnp
  by_cases hxe : x = []
  · subst hxe
    decide
  · have hs1 : strip_size_suffix x = x := by
      simp only [strip_size_suffix]
      rw [if_neg hxe, hpx, if_neg hnp]
    rw [hs1]
    have hcat : (x ++ " (".toList ++ "32".toList ++ " dydis)".toList) =
        x ++ " (32 dydis)".toList := by
      rw [List.append_assoc, List.append_assoc]
      congr 1
    have hps : pyStrip (x ++ " (32 dydis)".toList) = x ++ " (32 dydis)".toList :=
      pyStrip_append_nonws hpx hxe (by decide) (by decide)
    have hen : ensure_size_suffix x ("32".toList) = x ++ " (32 dydis)".toList := by
      simp only [ensure_size_suffix]
      rw [if_neg (by decide), hs1, hcat, hps]
    rw [hen]
    have hxsne : x ++ " (32 dydis)".toList ≠ [] := by
      intro hcontra
      rw [List.append_eq_nil] at hcontra
      exact absurd hcontra.2 (by decide)
    have hc1 : '(' ∈ x ++ " (32 dydis)".toList :=
      List.mem_append_right _ (by decide)
    have hc2 : (x ++ " (32 dydis)".toList).getLast? = some ')' := by
      rw [List.getLast?_append]
      rfl
    have hbl : beforeLast '(' (x ++ " (32 dydis)".toList) = x ++ [' '] := by
      have hdec : x ++ " (32 dydis)".toList =
          (x ++ [' ']) ++ '(' :: "32 dydis)".toList := by
        rw [List.append_assoc]
        congr 1
      rw [hdec]
      exact beforeLast_append (by decide)
    simp only [strip_size_suffix]
    rw [if_neg hxsne, hps, if_pos ⟨hc1, hc2⟩, hbl]
    exact pyStrip_append_space hpx

/-- C7 counterexample: the display name " Glove" (with a leading space) does
not end in a parenthesized group — its last character is not `')'` — yet the
strip/reapply/strip round trip returns "Glove", not " Glove". -/
theorem c7_round_trip_fails_untrimmed :
    (" Glove".toList.getLast? ≠ some ')')
    ∧ strip_size_suffix (ensure_size_suffix (strip_size_suffix " Glove".toList)
        ("32".toList)) ≠ " Glove".toList :=
  ⟨by decide, by decide⟩

/-- Witness for C7 (amended) at the trimmed name "Pirstines". -/
theorem c7_round_trip_witness :
    strip_size_suffix (ensure_size_suffix (strip_size_suffix "Pirstines".toList)
      ("32".toList)) = "Pirstines".toList :=
  c7_round_trip "Pirstines".toList (by decide) (by decide)

theorem dropWhile_isWS_idem (l : Str) :
    (l.dropWhile isWS).dropWhile isWS = l.dropWhile isWS := by
  induction l with
  | nil => rfl
  | cons c cs ih =>
    rw [List.dropWhile_cons]
    by_cases hc : isWS c = true
    · rw [if_pos hc]
      exact ih
    · rw [if_neg hc, List.dropWhile_cons, if_neg hc]

theorem dropWhile_isWS_prefix {t u : Str} (ht : t.dropWhile isWS = t)
    (hpre : u <+: t) : u.dropWhile isWS = u := by
  cases u with
  | nil => rfl
  | cons c cs =>
    obtain ⟨w, hw⟩ := hpre
    have hct : t = c :: (cs ++ w) := by
      rw [← hw]
      rfl
    have hc := head_not_ws ht c (cs ++ w) hct
    rw [List.dropWhile_cons, hc, if_neg Bool.false_ne_true]

theorem pyStrip_of_trimmed {u : Str} (h1 : u.dropWhile isWS = u)
    (h2 : u.reverse.dropWhile isWS = u.reverse) : pyStrip u = u := by
  unfold pyStrip
  rw [h1, h2, List.reverse_reverse]

theorem pyStrip_idem (s : Str) : pyStrip (pyStrip s) = pyStrip s := by
  have h1 : (pyStrip s).reverse.dropWhile isWS = (pyStrip s).reverse := by
    unfold pyStrip
    rw [List.reverse_reverse]
    exact dropWhile_isWS_idem _
  have h2 : (pyStrip s).dropWhile isWS = pyStrip s := by
    refine dropWhile_isWS_prefix (dropWhile_isWS_idem s) ?_
    unfold pyStrip
    have hsuf : (s.dropWhile isWS).reverse.dropWhile isWS <:+ (s.dropWhile isWS).reverse :=
      List.dropWhile_suffix isWS
    have hpre := List.reverse_prefix.2 hsuf
    rwa [List.reverse_reverse] at hpre
  exact pyStrip_of_trimmed h2 h1

theorem strip_size_suffix_pyStrip (s : Str) :
    strip_size_suffix (pyStrip s) = strip_size_suffix s := by
  by_cases hse : s = []
  · subst hse
    rfl
  · by_cases hps : pyStrip s = []
    · rw [hps]
      have hrhs : strip_size_suffix s = [] := by
        simp only [strip_size_suffix]
        rw [if_neg hse, hps]
        have hcond : ¬('(' ∈ ([] : Str) ∧ ([] : Str).getLast? = some ')') := by
          rintro ⟨hmem, _⟩
          cases hmem
        rw [if_neg hcond]
      rw [hrhs]
      rfl
    · simp only [strip_size_suffix]
      rw [if_neg hps, if_neg hse, pyStrip_idem]

theorem forall2_mem_strengthen {α β : Type} {F : α → β → Prop} :
    ∀ {l : List α} {out : List β}, List.Forall₂ F l out →
      List.Forall₂ (fun a b => a ∈ l ∧ F a b) l out := by
  intro l out h
  induction h with
  | nil => exact List.Forall₂.nil
  | cons hf hrest ih =>
    refine List.Forall₂.cons ⟨List.mem_cons_self _ _, hf⟩ ?_
    exact List.Forall₂.imp (fun a b hab => ⟨List.mem_cons_of_mem _ hab.1, hab.2⟩) ih

/-- C9: the resolver output is sorted ascending by remaining days — for any
entry appearing before another, defined remaining days are non-decreasing —
and every entry lacking a wear-out countdown is placed after all entries that
have one. -/
theorem c9_sorted_by_remaining :
    ∀ (l : List Row) (e : EmployeeInfo) (today : PyDate) (out : List GearEntry),
      current_gear_for_employee l e today = some out →
      List.Pairwise (fun a b =>
        (∀ x y : Int, a.like = some x → b.like = some y → x ≤ y) ∧
        (a.like = Option.none → b.like = Option.none)) out := by
  intro l e today out h
  obtain ⟨out0, _, hsort⟩ := gear_some h
  subst hsort
  have htrans : ∀ a b c : GearEntry, entryLe a b = true → entryLe b c = true →
      entryLe a c = true := by
    intro a b c
    simp only [entryLe, keyLe, Bool.or_eq_true, Bool.and_eq_true, decide_eq_true_eq]
    omega
  have htotal : ∀ a b : GearEntry, (entryLe a b || entryLe b a) = true := by
    intro a b
    simp only [entryLe, keyLe, Bool.or_eq_true, Bool.and_eq_true, decide_eq_true_eq]
    omega
  have hp := List.sorted_mergeSort htrans htotal out0
  refine List.Pairwise.imp ?_ hp
  intro a b hab
  constructor
  · intro x y hx hy
    simp only [entryLe, keyLe, sortKey, hx, hy, Option.isNone_some, Option.getD_some,
      Bool.false_eq_true, if_false, Bool.or_eq_true, Bool.and_eq_true,
      decide_eq_true_eq] at hab
    omega
  · intro ha
    simp only [entryLe, keyLe, sortKey, ha, Option.isNone_none, if_true,
      Bool.or_eq_true, Bool.and_eq_true, decide_eq_true_eq] at hab
    cases hbl : b.like with
    | none => rfl
    | some y =>
      rw [hbl] at hab
      simp only [Option.isNone_some, Bool.false_eq_true, if_false] at hab
      omega

/-- Witness for C9 on the one-row ledger `[rowA]`. -/
theorem c9_sorted_by_remaining_witness :
    List.Pairwise (fun a b : GearEntry =>
      (∀ x y : Int, a.like = some x → b.like = some y → x ≤ y) ∧
      (a.like = Option.none → b.like = Option.none)) [entryA] :=
  c9_sorted_by_remaining [rowA] empW todayW [entryA]
    (by rw [gear_eval [rowA] empW todayW [entryA] (by decide), List.mergeSort_singleton])

/-- C2: every entry of the resolver output stems from a ledger row whose
whitespace-trimmed personnel number, department and position equal the
employee's current values; rows issued under any other department/position
pair never contribute — appending such a row leaves the result unchanged. -/
theorem c2_current_context_filter :
    (∀ (l : List Row) (e : EmployeeInfo) (today : PyDate) (out : List GearEntry)
      (en : GearEntry), current_gear_for_employee l e today = some out → en ∈ out →
      ∃ r, r ∈ loadRows l ∧ pyStrip r.tabNr.pyStr = e.tab_nr ∧
        pyStrip r.padalinys.pyStr = e.department ∧
        pyStrip r.pareigos.pyStr = e.position ∧
        en.apranga = pyOrEmpty r.apranga ∧ en.isduota = parse_date r.isduota)
    ∧ (∀ (l : List Row) (e : EmployeeInfo) (today : PyDate) (r : Row),
        ¬(pyStrip r.padalinys.pyStr = e.department ∧
          pyStrip r.pareigos.pyStr = e.position) →
        current_gear_for_employee (l ++ [r]) e today =
          current_gear_for_employee l e today) := by
  constructor
  · intro l e today out en h hmem
    obtain ⟨out0, hc, hsort⟩ := gear_some h
    have hmem0 : en ∈ out0 := by
      rw [hsort] at hmem
      exact (List.mergeSort_perm out0 entryLe).mem_iff.1 hmem
    obtain ⟨t, ht, hf⟩ := forall2_mem_right (collectEntries_some _ hc) en hmem0
    obtain ⟨_, hinv, _, _⟩ := buildLatest_inv (relRows l e)
    obtain ⟨hrel, _, _, _⟩ := hinv t ht
    obtain ⟨ha, _, hisd, _, _⟩ := mkEntry_some hf
    unfold relRows at hrel
    rw [List.mem_filter] at hrel
    obtain ⟨hrel1, hdp⟩ := hrel
    rw [List.mem_filter] at hrel1
    obtain ⟨hload, htab⟩ := hrel1
    unfold tabMatches at htab
    unfold deptPosMatches at hdp
    rw [Bool.and_eq_true] at hdp
    exact ⟨t.2.1, hload, of_decide_eq_true htab, of_decide_eq_true hdp.1,
      of_decide_eq_true hdp.2, ha, hisd⟩
  · intro l e today r hnm
    unfold current_gear_for_employee
    have hdp : deptPosMatches e r = false := by
      unfold deptPosMatches
      rcases not_and_or.1 hnm with hna | hnb
      · rw [decide_eq_false hna, Bool.false_and]
      · rw [decide_eq_false hnb, Bool.and_false]
    have hrel : relRows (l ++ [r]) e = relRows l e := by
      unfold relRows loadRows
      rw [List.filter_append, List.filter_append, List.filter_append]
      have h1 : List.filter (deptPosMatches e)
          (List.filter (tabMatches e) (List.filter rowTruthy [r])) = [] := by
        cases ht : rowTruthy r
        · simp [List.filter_cons, ht]
        · cases htab : tabMatches e r
          · simp [List.filter_cons, ht, htab]
          · simp [List.filter_cons, ht, htab, hdp]
      rw [h1, List.append_nil]
    rw [hrel]

/-- Witness for C2 on the one-row ledger `[rowA]`. -/
theorem c2_current_context_filter_witness :
    ∃ r, r ∈ loadRows [rowA] ∧ pyStrip r.tabNr.pyStr = empW.tab_nr ∧
      pyStrip r.padalinys.pyStr = empW.department ∧
      pyStrip r.pareigos.pyStr = empW.position ∧
      entryA.apranga = pyOrEmpty r.apranga ∧ entryA.isduota = parse_date r.isduota :=
  c2_current_context_filter.1 [rowA] empW todayW [entryA] entryA
    (by rw [gear_eval [rowA] empW todayW [entryA] (by decide), List.mergeSort_singleton])
    (List.mem_singleton.2 rfl)

/-- C1: the resolver output has at most one entry per base item name
(pairwise-distinct stripped display names); every entry stems from a record
of the employee's current department/position whose parsed issue date is
maximal among all records of the same base name there — in particular, of
two records differing only in `issued_on`, the later one is kept; and every
same-context record with a display name and a parsable issue date is
represented by exactly one entry of its base name. -/
theorem c1_latest_per_base :
    ∀ (l : List Row) (e : EmployeeInfo) (today : PyDate) (out : List GearEntry),
      current_gear_for_employee l e today = some out →
      List.Pairwise (fun a b : GearEntry =>
        strip_size_suffix a.apranga ≠ strip_size_suffix b.apranga) out
      ∧ (∀ en ∈ out, ∃ r d, r ∈ relRows l e ∧ parse_date r.isduota = some d ∧
          en.apranga = pyOrEmpty r.apranga ∧ en.isduota = some d ∧
          ∀ r2 ∈ relRows l e, nmOf r2 ≠ [] →
            strip_size_suffix (pyOrEmpty r2.apranga) = strip_size_suffix en.apranga →
            ∀ d2, parse_date r2.isduota = some d2 → dateLeB d2 d = true)
      ∧ (∀ r ∈ relRows l e, nmOf r ≠ [] → (parse_date r.isduota).isSome = true →
          ∃ en ∈ out, strip_size_suffix en.apranga =
            strip_size_suffix (pyOrEmpty r.apranga)) := by
  intro l e today out h
  obtain ⟨out0, hc, hsort⟩ := gear_some h
  subst hsort
  have hperm : (out0.mergeSort entryLe).Perm out0 := List.mergeSort_perm out0 entryLe
  obtain ⟨hnd, hsrc, hdom, hcov⟩ := buildLatest_inv (relRows l e)
  have hfa := collectEntries_some (mkEntry today) hc
  have hbase : ∀ t ∈ buildLatest (relRows l e), ∀ en : GearEntry,
      mkEntry today t = some en → strip_size_suffix en.apranga = t.1 := by
    intro t ht en hf
    obtain ⟨ha, _, _, _, _⟩ := mkEntry_some hf
    obtain ⟨_, hb, _, _⟩ := hsrc t ht
    rw [ha, ← hb]
    unfold baseOf nmOf
    exact (strip_size_suffix_pyStrip _).symm
  refine ⟨?_, ?_, ?_⟩
  · have hkeys : List.Pairwise (fun t u : Str × Row × PyDate => t.1 ≠ u.1)
        (buildLatest (relRows l e)) := by
      rw [List.Nodup, List.pairwise_map] at hnd
      exact hnd
    have hpair0 : List.Pairwise (fun a b : GearEntry =>
        strip_size_suffix a.apranga ≠ strip_size_suffix b.apranga) out0 := by
      refine forall2_pairwise ?_ (forall2_mem_strengthen hfa) hkeys
      intro t u x y hf hg hne
      rw [hbase t hf.1 x hf.2, hbase u hg.1 y hg.2]
      exact hne
    exact (List.Perm.pairwise_iff (fun hne => hne.symm) hperm).2 hpair0
  · intro en hmem
    have hmem0 : en ∈ out0 := hperm.mem_iff.1 hmem
    obtain ⟨t, ht, hf⟩ := forall2_mem_right hfa en hmem0
    obtain ⟨ha, _, hisd, _, _⟩ := mkEntry_some hf
    obtain ⟨hrel, hb, hnm, hp⟩ := hsrc t ht
    refine ⟨t.2.1, t.2.2, hrel, hp, ha, by rw [hisd, hp], ?_⟩
    intro r2 hr2 hnm2 hbase2 d2 hp2
    refine hdom t ht r2 hr2 hnm2 ?_ d2 hp2
    have hent : strip_size_suffix en.apranga = t.1 := hbase t ht en hf
    unfold baseOf nmOf
    rw [strip_size_suffix_pyStrip, hbase2, hent]
  · intro r hr hnm2 hps
    have hkey := hcov r hr hnm2 hps
    obtain ⟨t, htm, ht1⟩ := List.mem_map.1 hkey
    obtain ⟨en, hen0, hf⟩ := forall2_mem_left hfa t htm
    refine ⟨en, hperm.mem_iff.2 hen0, ?_⟩
    rw [hbase t htm en hf, ht1]
    unfold baseOf nmOf
    rw [strip_size_suffix_pyStrip]

/-- Witness for C1 on the two-record ledger `[rowA, rowB]` (same base item,
dates 2024-01-10 and 2024-03-15): the single entry carries the later date. -/
theorem c1_latest_per_base_witness :
    List.Pairwise (fun a b : GearEntry =>
      strip_size_suffix a.apranga ≠ strip_size_suffix b.apranga) [entryB]
    ∧ (∀ en ∈ [entryB], ∃ r d, r ∈ relRows [rowA, rowB] empW ∧
        parse_date r.isduota = some d ∧
        en.apranga = pyOrEmpty r.apranga ∧ en.isduota = some d ∧
        ∀ r2 ∈ relRows [rowA, rowB] empW, nmOf r2 ≠ [] →
          strip_size_suffix (pyOrEmpty r2.apranga) = strip_size_suffix en.apranga →
          ∀ d2, parse_date r2.isduota = some d2 → dateLeB d2 d = true)
    ∧ (∀ r ∈ relRows [rowA, rowB] empW, nmOf r ≠ [] →
        (parse_date r.isduota).isSome = true →
        ∃ en ∈ [entryB], strip_size_suffix en.apranga =
          strip_size_suffix (pyOrEmpty r.apranga)) :=
  c1_latest_per_base [rowA, rowB] empW todayW [entryB]
    (by rw [gear_eval [rowA, rowB] empW todayW [entryB] (by decide),
      List.mergeSort_singleton])
